import Mathlib

/-!
Shallow embedding of the sampling-and-history engine of
`daryanka/rust_resource_viewer` (`src/main.rs`).

Rust `f64`/`f32` sample values are modelled as `ℚ` (all operations the
engine performs on them — division by a power of two, division by the CPU
count, comparison — are exact on the values of interest); `u64` packet
counters are modelled as `Nat` with explicit wrap-around `% 2^64` on
addition.  The `sysinfo::System` handle is an external collaborator: the
data it yields on one `refresh_all` call is modelled by a `RawSnapshot`
input to the update step.
-/

/-- History-buffer capacity: the literal `500` in `update_system_info`. -/
def capacity : Nat := 500

/-- One push into a history buffer, as in `update_system_info`
(`self.memory_usage.push(..); if self.memory_usage.len() > 500 { self.memory_usage.remove(0); }`
and the identical pattern for `cpu_vec.raw_data` at src/main.rs:80-83):
append at the end and, when the length then exceeds 500, remove exactly one
element from the front. -/
def pushEvict (buf : List ℚ) (v : ℚ) : List ℚ :=
  let b := buf ++ [v]
  if b.length > capacity then b.tail else b

/-- Running a whole sequence of pushes starting from the empty buffer. -/
def histRun (vs : List ℚ) : List ℚ :=
  vs.foldl pushEvict []

/-- Function `create_tuple_vec_for_graph` (src/main.rs:440-446): the element at
0-based offset `i` becomes the point `(i+1, value)`. -/
def create_tuple_vec_for_graph (data : List ℚ) : List (ℚ × ℚ) :=
  data.enum.map (fun p => (((p.1 + 1 : ℕ) : ℚ), p.2))

/-- The subset of `tui::style::Color` values the program mentions. -/
inductive Color where
  | green
  | cyan
  | yellow
  | white
  | gray
deriving DecidableEq, Repr

/-- Struct `CPUData` (src/main.rs:36-42). -/
structure CPUData where
  name : String
  raw_data : List ℚ
  data : List (ℚ × ℚ)
  color : Color
deriving DecidableEq, Repr

/-- The fresh identity pushed at src/main.rs:69-74: empty buffers,
default color `Green`. -/
def newCPUData (cpu_name : String) : CPUData :=
  { name := cpu_name, raw_data := [], data := [], color := Color.green }

/-- The per-identity update at src/main.rs:79-84: push the usage sample
into `raw_data`, evict from the front past capacity, re-materialize
`data`. -/
def updateCPU (c : CPUData) (usage : ℚ) : CPUData :=
  let raw := pushEvict c.raw_data usage
  { c with raw_data := raw, data := create_tuple_vec_for_graph raw }

/-- The CPU-identity registry step (src/main.rs:60-85): look the name up by
exact match (`self.cpus.iter().position(|x| x.name == cpu_name)`); if
absent, append a fresh identity and use its index; then update the identity
at the found index in place.  The `none` fallbacks mirror the `.unwrap()` on
`get_mut`, which never fires (the index is always in range). -/
def observe (cpus : List CPUData) (cpu_name : String) (usage : ℚ) : List CPUData :=
  match cpus.findIdx? (fun x => x.name == cpu_name) with
  | some index =>
    match cpus[index]? with
    | some c => cpus.set index (updateCPU c usage)
    | none => cpus
  | none =>
    let cpus2 := cpus ++ [newCPUData cpu_name]
    match cpus2[cpus2.length - 1]? with
    | some c => cpus2.set (cpus2.length - 1) (updateCPU c usage)
    | none => cpus2

/-- Wrap-around `u64` addition. -/
def addWrap (a b : Nat) : Nat := (a + b) % 2 ^ 64

/-- The network aggregation at src/main.rs:89-104: map each interface to
its `(packets_received, packets_transmitted)` pair, `reduce` with
componentwise addition, `unwrap_or((0, 0))` on an empty interface set. -/
def aggregate (interfaces : List (Nat × Nat)) : Nat × Nat :=
  match interfaces with
  | [] => (0, 0)
  | x :: xs => xs.foldl (fun acc n => (addWrap acc.1 n.1, addWrap acc.2 n.2)) x

/-- Rendering of a share with `format!("{:.2}%", cpu)` minus the trailing
percent sign: two decimal places, rounding the scaled value to the nearest
integer (ties rounded up; `q * 100` is computed on `num`/`den` directly so
that the definition evaluates by kernel reduction). -/
def fmt2 (q : ℚ) : String :=
  let n : ℤ := Int.ediv (2 * (q.num * 100) + (q.den : ℤ)) (2 * (q.den : ℤ))
  let s := if n < 0 then "-" else ""
  let m := n.natAbs
  s ++ toString (m / 100) ++ "." ++
    (if m % 100 < 10 then "0" ++ toString (m % 100) else toString (m % 100))

/-- The comparator passed to `sort_by` at src/main.rs:120-122:
`a.2.partial_cmp(&b.2).unwrap()`, i.e. compare by the normalized share.
On `ℚ` the comparison is total, so the `unwrap` always succeeds. -/
def byShare (a b : String × String × ℚ) : Bool := decide (a.2.2 ≤ b.2.2)

/-- The row map at src/main.rs:109-118: each process becomes
`(pid.to_string(), name, cpu_usage / num_cpus)`. -/
def normalizeRows (raw_rows : List (Nat × String × ℚ)) (num_cpus : ℚ) :
    List (String × String × ℚ) :=
  raw_rows.map (fun p => (toString p.1, p.2.1, p.2.2 / num_cpus))

/-- The process ranking at src/main.rs:106-133: normalize, stable-sort
ascending by share (`sort_by` is a stable sort), then
`.iter().rev().take(top_n)` and format each row as
`[pid, name, "{:.2}%"]`.  In the program `top_n` is the literal `100`. -/
def rank (raw_rows : List (Nat × String × ℚ)) (num_cpus : ℚ) (top_n : Nat) :
    List (List String) :=
  let sorted_processes := (normalizeRows raw_rows num_cpus).mergeSort byShare
  (sorted_processes.reverse.take top_n).map
    (fun p => [p.1, p.2.1, fmt2 p.2.2 ++ "%"])

/-- The data one `System::refresh_all` makes available to
`update_system_info`: used/total memory, the global CPU's name and usage,
the per-interface packet counters and the process table. -/
structure RawSnapshot where
  used_memory : Nat
  total_memory : Nat
  global_cpu_name : String
  global_cpu_usage : ℚ
  networks : List (Nat × Nat)
  processes : List (Nat × String × ℚ)
  num_cpus : Nat

/-- Struct `SystemData` (src/main.rs:24-34), minus the `system : System` handle,
which is the external metric source and is modelled by the `RawSnapshot`
argument of `update_system_info`. -/
structure SystemData where
  total_memory : ℚ
  memory_usage : List ℚ
  memory_usage_as_tuple : List (ℚ × ℚ)
  cpus : List CPUData
  cpu_usage : ℚ
  packets : (String × Nat) × (String × Nat)
  processes : List (List String)

/-- Method `SystemData::update_system_info` (src/main.rs:45-134) applied to the
raw data of one tick.  The loop over `all_cpus` runs exactly once, on the
global CPU, whose registry key is `format!("CPU {}", cpu.name())`. -/
def update_system_info (s : SystemData) (raw : RawSnapshot) : SystemData :=
  let memory_usage :=
    pushEvict s.memory_usage ((raw.used_memory : ℚ) / 1024 / 1024 / 1024)
  let memory_usage_as_tuple := create_tuple_vec_for_graph memory_usage
  let cpus := observe s.cpus ("CPU " ++ raw.global_cpu_name) raw.global_cpu_usage
  let p := aggregate raw.networks
  { total_memory := (raw.total_memory : ℚ)
    memory_usage := memory_usage
    memory_usage_as_tuple := memory_usage_as_tuple
    cpus := cpus
    cpu_usage := raw.global_cpu_usage
    packets := (("Packets In", p.1), ("Packets Out", p.2))
    processes := rank raw.processes (raw.num_cpus : ℚ) 100 }

/-- The initial state built in `run_app` (src/main.rs:168-177). -/
def initState : SystemData :=
  { total_memory := 0
    memory_usage := []
    memory_usage_as_tuple := []
    cpus := []
    cpu_usage := 0
    packets := (("Packets In", 0), ("Packets Out", 0))
    processes := [] }

/-- The state after a sequence of completed update ticks. -/
def runTicks (raws : List RawSnapshot) : SystemData :=
  raws.foldl update_system_info initState

/-- One event of the concurrent system of src/main.rs:180-194: either the
updater task performs a whole `write().await.update_system_info()` step
(the write guard is held for the entire call, so the step is atomic), or
the render loop takes the read lock and observes the current snapshot. -/
inductive Ev where
  | write (raw : RawSnapshot)
  | read

/-- Effect of one event on (current snapshot, list of reader observations). -/
def stepEv (acc : SystemData × List SystemData) (e : Ev) : SystemData × List SystemData :=
  match e with
  | Ev.write raw => (update_system_info acc.1 raw, acc.2)
  | Ev.read => (acc.1, acc.2 ++ [acc.1])

/-- Run an arbitrary interleaving of writer ticks and reader passes from
the initial state; returns the final snapshot and every snapshot some
reader observed. -/
def runTrace (t : List Ev) : SystemData × List SystemData :=
  t.foldl stepEv (initState, [])

/-- Generation consistency of one snapshot: every CPU identity's buffer has
exactly as many samples as the memory buffer, and its materialized series
is as long as the memory series. -/
def lengthsConsistent (s : SystemData) : Bool :=
  s.cpus.all (fun c =>
    c.raw_data.length == s.memory_usage.length
      && c.data.length == s.memory_usage_as_tuple.length)

/-- Freshness of the materialized series of one snapshot: each series is
exactly the materialization of its current buffer. -/
def seriesFresh (s : SystemData) : Bool :=
  decide (s.memory_usage_as_tuple = create_tuple_vec_for_graph s.memory_usage)
    && s.cpus.all (fun c => decide (c.data = create_tuple_vec_for_graph c.raw_data))

/-- Invariant tying a snapshot to a run in which every tick reported the
same global-CPU name `nm` (as `sysinfo` does: the global CPU's name is
fixed for the process lifetime): the registry is empty before the first
tick, and afterwards holds exactly the one global identity, whose buffer
and series lengths agree with the memory buffer and series lengths. -/
def ConsistentFor (nm : String) (s : SystemData) : Prop :=
  (s.cpus = [] ∧ s.memory_usage = [] ∧ s.memory_usage_as_tuple = []) ∨
  (∃ c, s.cpus = [c] ∧ c.name = "CPU " ++ nm ∧
    c.raw_data.length = s.memory_usage.length ∧
    c.data.length = s.memory_usage_as_tuple.length ∧
    s.memory_usage_as_tuple.length = s.memory_usage.length)

/-- A concrete raw snapshot used to instantiate the concurrent-trace
theorem. -/
def sampleRaw : RawSnapshot :=
  { used_memory := 1073741824
    total_memory := 2147483648
    global_cpu_name := "0"
    global_cpu_usage := 37
    networks := [(10, 20)]
    processes := [(1, "init", 5)]
    num_cpus := 1 }

/-- A concrete interleaving: one writer tick followed by one reader pass. -/
def sampleTrace : List Ev := [Ev.write sampleRaw, Ev.read]

/-! ### Helper lemmas -/

theorem histRun_append (vs : List ℚ) (v : ℚ) :
    histRun (vs ++ [v]) = pushEvict (histRun vs) v := by
  simp [histRun, List.foldl_append]

theorem histRun_eq_drop (vs : List ℚ) :
    histRun vs = vs.drop (vs.length - capacity) := by
  have hc : capacity = 500 := rfl
  induction vs using List.reverseRecOn with
  | nil => rfl
  | append_singleton vs v ih =>
    rw [histRun_append, ih]
    simp only [pushEvict]
    rw [← List.drop_append_of_le_length (show vs.length - capacity ≤ vs.length by omega)]
    have hlen : ((vs ++ [v]).drop (vs.length - capacity)).length
        = vs.length - (vs.length - capacity) + 1 := by
      simp only [List.length_drop, List.length_append, List.length_cons, List.length_nil]
      omega
    split_ifs with h
    · rw [hlen] at h
      rw [List.tail_drop]
      rw [show vs.length - capacity + 1 = (vs ++ [v]).length - capacity by
        simp only [List.length_append, List.length_cons, List.length_nil]; omega]
    · rw [hlen] at h
      rw [show vs.length - capacity = (vs ++ [v]).length - capacity by
        simp only [List.length_append, List.length_cons, List.length_nil]; omega]

theorem pushEvict_nil (v : ℚ) : pushEvict [] v = [v] := by
  simp [pushEvict, capacity]

theorem pushEvict_length (l : List ℚ) (v : ℚ) :
    (pushEvict l v).length
      = if l.length + 1 > capacity then l.length else l.length + 1 := by
  simp only [pushEvict, List.length_append, List.length_cons, List.length_nil]
  split_ifs with h
  · simp only [List.length_tail, List.length_append, List.length_cons, List.length_nil]
    omega
  · simp

theorem create_tuple_length (data : List ℚ) :
    (create_tuple_vec_for_graph data).length = data.length := by
  simp [create_tuple_vec_for_graph]

theorem create_tuple_positions (data : List ℚ) :
    (create_tuple_vec_for_graph data).map Prod.fst
      = (List.range data.length).map (fun i => ((i + 1 : ℕ) : ℚ)) := by
  have h : (create_tuple_vec_for_graph data).map Prod.fst
      = (data.enum.map Prod.fst).map (fun i => ((i + 1 : ℕ) : ℚ)) := by
    simp only [create_tuple_vec_for_graph, List.map_map]
    rfl
  rw [h, List.enum_map_fst]

theorem create_tuple_getD (data : List ℚ) (i : ℕ) (h : i < data.length) :
    (create_tuple_vec_for_graph data).getD i (0, 0)
      = (((i + 1 : ℕ) : ℚ), data.getD i 0) := by
  simp [create_tuple_vec_for_graph, List.getD_eq_getElem?_getD, List.getElem?_map,
    List.getElem?_enum, List.getElem?_eq_getElem h]

theorem observe_nil (nm : String) (u : ℚ) :
    observe [] nm u = [updateCPU (newCPUData nm) u] := rfl

theorem observe_cons_hit (c : CPUData) (rest : List CPUData) (nm : String) (u : ℚ)
    (h : c.name = nm) :
    observe (c :: rest) nm u = updateCPU c u :: rest := by
  simp [observe, List.findIdx?_cons, h]

theorem observe_cons_miss (c : CPUData) (rest : List CPUData) (nm : String) (u : ℚ)
    (h : c.name ≠ nm) :
    observe (c :: rest) nm u = c :: observe rest nm u := by
  have hb : (c.name == nm) = false := by simp [h]
  simp only [observe, List.findIdx?_cons, hb, Bool.false_eq_true, if_false,
    List.findIdx?_start_succ, Nat.zero_add]
  cases hfind : List.findIdx? (fun x => x.name == nm) rest with
  | none =>
    simp only [Option.map_none', List.length_append, List.length_cons, List.length_nil,
      List.cons_append, Nat.add_sub_cancel, List.getElem?_concat_length]
    have h2 : rest.length + 1 + 1 - 1 = rest.length + 1 := by omega
    simp only [h2, List.getElem?_cons_succ, List.set_cons_succ, List.getElem?_concat_length]
  | some j =>
    simp only [Option.map_some', List.getElem?_cons_succ]
    cases hg : rest[j]? with
    | none => rfl
    | some c0 => simp only [List.set_cons_succ]

theorem updateCPU_name (c : CPUData) (u : ℚ) : (updateCPU c u).name = c.name := rfl

theorem observe_names (cpus : List CPUData) (nm : String) (u : ℚ) :
    (observe cpus nm u).map CPUData.name =
      if nm ∈ cpus.map CPUData.name then cpus.map CPUData.name
      else cpus.map CPUData.name ++ [nm] := by
  induction cpus with
  | nil => simp [observe_nil, updateCPU, newCPUData]
  | cons c rest ih =>
    by_cases h : c.name = nm
    · rw [observe_cons_hit c rest nm u h]
      simp [updateCPU, h]
    · rw [observe_cons_miss c rest nm u h]
      by_cases hm : nm ∈ rest.map CPUData.name
      · simp [ih, hm, Ne.symm h]
      · simp [ih, hm, Ne.symm h]

theorem observe_other_positions (cpus : List CPUData) (nm : String) (u : ℚ)
    (i : ℕ) (c : CPUData) (hi : cpus[i]? = some c) (hc : c.name ≠ nm) :
    (observe cpus nm u)[i]? = some c := by
  induction cpus generalizing i with
  | nil => simp at hi
  | cons d rest ih =>
    by_cases h : d.name = nm
    · rw [observe_cons_hit d rest nm u h]
      cases i with
      | zero =>
        simp at hi
        subst hi
        exact absurd h hc
      | succ j => simpa using hi
    · rw [observe_cons_miss d rest nm u h]
      cases i with
      | zero => simpa using hi
      | succ j =>
        simp only [List.getElem?_cons_succ] at hi ⊢
        exact ih j hi

theorem observe_found (cpus : List CPUData) (nm : String) (u : ℚ)
    (i : ℕ) (c : CPUData) (hi : cpus[i]? = some c) (hc : c.name = nm)
    (hfirst : ∀ x ∈ cpus.take i, x.name ≠ nm) :
    observe cpus nm u = cpus.set i (updateCPU c u) := by
  induction cpus generalizing i with
  | nil => simp at hi
  | cons d rest ih =>
    cases i with
    | zero =>
      simp only [List.getElem?_cons_zero, Option.some_inj] at hi
      subst hi
      rw [observe_cons_hit d rest nm u hc]
      simp
    | succ j =>
      have hd : d.name ≠ nm := hfirst d (by simp)
      rw [observe_cons_miss d rest nm u hd]
      simp only [List.getElem?_cons_succ] at hi
      rw [ih j hi (fun x hx => hfirst x (by simp [List.take_succ_cons]; right; exact hx))]
      simp

theorem observe_nodup (cpus : List CPUData) (nm : String) (u : ℚ)
    (h : (cpus.map CPUData.name).Nodup) :
    ((observe cpus nm u).map CPUData.name).Nodup := by
  rw [observe_names]
  split_ifs with hm
  · exact h
  · simp [List.nodup_append, h, hm]

theorem byShare_trans (a b c : String × String × ℚ)
    (h1 : byShare a b) (h2 : byShare b c) : byShare a c := by
  simp only [byShare, decide_eq_true_eq] at h1 h2 ⊢
  exact le_trans h1 h2

theorem byShare_total (a b : String × String × ℚ) : byShare a b || byShare b a := by
  simp only [byShare, Bool.or_eq_true, decide_eq_true_eq]
  exact le_total _ _

theorem rank_length (rows : List (Nat × String × ℚ)) (c : ℚ) (t : Nat) :
    (rank rows c t).length = min t rows.length := by
  simp [rank, normalizeRows]

theorem rank_sorted (rows : List (Nat × String × ℚ)) (c : ℚ) :
    ((normalizeRows rows c).mergeSort byShare).Pairwise
      (fun a b => a.2.2 ≤ b.2.2) := by
  have h := List.sorted_mergeSort byShare_trans byShare_total (normalizeRows rows c)
  exact h.imp (fun hab => by simpa [byShare] using hab)

theorem rank_tail (rows : List (Nat × String × ℚ)) (c : ℚ) (t : Nat) :
    rank rows c t
      = ((((normalizeRows rows c).mergeSort byShare).drop (rows.length - t)).reverse).map
          (fun p => [p.1, p.2.1, fmt2 p.2.2 ++ "%"]) := by
  have hl : ((normalizeRows rows c).mergeSort byShare).length = rows.length := by
    simp [normalizeRows]
  simp only [rank, List.take_reverse, hl]

theorem rank_stable (rows : List (Nat × String × ℚ)) (c : ℚ)
    (a b : String × String × ℚ) (hab : a.2.2 = b.2.2)
    (hsub : List.Sublist [a, b] (normalizeRows rows c)) :
    List.Sublist [a, b] ((normalizeRows rows c).mergeSort byShare) :=
  List.pair_sublist_mergeSort byShare_trans byShare_total
    (by simp [byShare, hab]) hsub

theorem rank_rows_shape (rows : List (Nat × String × ℚ)) (c : ℚ) (t : Nat) :
    (rank rows c t).all (fun r => r.length == 3) = true := by
  simp only [rank, List.all_eq_true, List.mem_map]
  rintro r ⟨p, hp, rfl⟩
  rfl

theorem aggregate_foldl (l : List (Nat × Nat)) (x : Nat × Nat)
    (h1 : x.1 + (l.map Prod.fst).sum < 2 ^ 64)
    (h2 : x.2 + (l.map Prod.snd).sum < 2 ^ 64) :
    l.foldl (fun acc n => (addWrap acc.1 n.1, addWrap acc.2 n.2)) x
      = (x.1 + (l.map Prod.fst).sum, x.2 + (l.map Prod.snd).sum) := by
  induction l generalizing x with
  | nil => simp
  | cons n l ih =>
    simp only [List.map_cons, List.sum_cons] at h1 h2
    simp only [List.foldl_cons, List.map_cons, List.sum_cons]
    have e1 : addWrap x.1 n.1 = x.1 + n.1 := Nat.mod_eq_of_lt (by omega)
    have e2 : addWrap x.2 n.2 = x.2 + n.2 := Nat.mod_eq_of_lt (by omega)
    rw [show (addWrap x.1 n.1, addWrap x.2 n.2) = ((x.1 + n.1, x.2 + n.2) : Nat × Nat) by
      rw [e1, e2]]
    rw [ih (x.1 + n.1, x.2 + n.2) (by simpa using by omega) (by simpa using by omega)]
    simp
    omega

theorem update_cpus (s : SystemData) (raw : RawSnapshot) :
    (update_system_info s raw).cpus
      = observe s.cpus ("CPU " ++ raw.global_cpu_name) raw.global_cpu_usage := rfl

theorem update_memory (s : SystemData) (raw : RawSnapshot) :
    (update_system_info s raw).memory_usage
      = pushEvict s.memory_usage ((raw.used_memory : ℚ) / 1024 / 1024 / 1024) := rfl

theorem update_tuple (s : SystemData) (raw : RawSnapshot) :
    (update_system_info s raw).memory_usage_as_tuple
      = create_tuple_vec_for_graph (update_system_info s raw).memory_usage := rfl

theorem consistentFor_holds {nm : String} {s : SystemData}
    (h : ConsistentFor nm s) : lengthsConsistent s = true := by
  rcases h with ⟨h1, h2, h3⟩ | ⟨c, h1, _, h3, h4, h5⟩
  · simp [lengthsConsistent, h1]
  · simp [lengthsConsistent, h1, h3, h4, h5]

theorem update_consistent (s : SystemData) (raw : RawSnapshot) (nm : String)
    (h : ConsistentFor nm s) (hr : raw.global_cpu_name = nm) :
    ConsistentFor nm (update_system_info s raw) := by
  subst hr
  right
  rcases h with ⟨h1, h2, _⟩ | ⟨c, h1, h2, h3, _, _⟩
  · refine ⟨updateCPU (newCPUData ("CPU " ++ raw.global_cpu_name)) raw.global_cpu_usage,
      ?_, rfl, ?_, ?_, ?_⟩
    · rw [update_cpus, h1, observe_nil]
    · rw [update_memory, h2]
      simp [updateCPU, newCPUData, pushEvict_nil]
    · rw [update_tuple, create_tuple_length, update_memory, h2]
      simp [updateCPU, newCPUData, pushEvict_nil, create_tuple_length]
    · rw [update_tuple, create_tuple_length]
  · refine ⟨updateCPU c raw.global_cpu_usage, ?_, ?_, ?_, ?_, ?_⟩
    · rw [update_cpus, h1, observe_cons_hit c [] _ _ h2]
    · rw [updateCPU_name, h2]
    · rw [update_memory]
      simp only [updateCPU, pushEvict_length]
      rw [h3]
    · rw [update_tuple, create_tuple_length, update_memory]
      simp only [updateCPU, create_tuple_length, pushEvict_length]
      rw [h3]
    · rw [update_tuple, create_tuple_length]

theorem runTrace_consistent (nm : String) :
    ∀ (t : List Ev) (acc : SystemData × List SystemData),
      ConsistentFor nm acc.1 →
      (∀ o ∈ acc.2, lengthsConsistent o = true) →
      (∀ raw : RawSnapshot, Ev.write raw ∈ t → raw.global_cpu_name = nm) →
      ConsistentFor nm (t.foldl stepEv acc).1 ∧
        ∀ o ∈ (t.foldl stepEv acc).2, lengthsConsistent o = true := by
  intro t
  induction t with
  | nil => intro acc h1 h2 _; exact ⟨h1, h2⟩
  | cons e t ih =>
    intro acc h1 h2 hw
    cases e with
    | write raw =>
      simp only [List.foldl_cons, stepEv]
      exact ih (update_system_info acc.1 raw, acc.2)
        (update_consistent acc.1 raw nm h1 (hw raw (by simp)))
        h2 (fun r hr => hw r (by simp [hr]))
    | read =>
      simp only [List.foldl_cons, stepEv]
      refine ih (acc.1, acc.2 ++ [acc.1]) h1 ?_ (fun r hr => hw r (by simp [hr]))
      intro o ho
      rcases List.mem_append.mp ho with hmem | hmem
      · exact h2 o hmem
      · rw [List.mem_singleton.mp hmem]
        exact consistentFor_holds h1

theorem observe_fresh (cpus : List CPUData) (nm : String) (u : ℚ)
    (h : ∀ c ∈ cpus, c.data = create_tuple_vec_for_graph c.raw_data) :
    ∀ c ∈ observe cpus nm u, c.data = create_tuple_vec_for_graph c.raw_data := by
  induction cpus with
  | nil =>
    rw [observe_nil]
    intro c hc
    rw [List.mem_singleton.mp hc]
    rfl
  | cons d rest ih =>
    by_cases hd : d.name = nm
    · rw [observe_cons_hit d rest nm u hd]
      intro c hc
      rcases List.mem_cons.mp hc with h1 | h1
      · rw [h1]; rfl
      · exact h c (List.mem_cons_of_mem d h1)
    · rw [observe_cons_miss d rest nm u hd]
      intro c hc
      rcases List.mem_cons.mp hc with h1 | h1
      · rw [h1]; exact h d (List.mem_cons_self d rest)
      · exact ih (fun c2 hc2 => h c2 (List.mem_cons_of_mem d hc2)) c h1

theorem seriesFresh_update (s : SystemData) (raw : RawSnapshot)
    (h : ∀ c ∈ s.cpus, c.data = create_tuple_vec_for_graph c.raw_data) :
    seriesFresh (update_system_info s raw) = true := by
  simp only [seriesFresh, Bool.and_eq_true, decide_eq_true_eq, List.all_eq_true]
  refine ⟨rfl, ?_⟩
  intro c hc
  rw [update_cpus] at hc
  simpa using observe_fresh s.cpus _ _ h c hc

theorem runTicks_append (raws : List RawSnapshot) (raw : RawSnapshot) :
    runTicks (raws ++ [raw]) = update_system_info (runTicks raws) raw := by
  simp [runTicks, List.foldl_append]

/-! ### Claims -/

/-- C1: for every sequence of pushes into a history buffer (starting, as in
the program, from the empty buffer), the buffer length is at most 500 after
every push, and the buffer always holds exactly the (up to) 500 most
recently pushed values in push order — equivalently, the suffix of the push
sequence that drops all but the last 500 values. -/
theorem C1_history_buffer_bounded (vs : List ℚ) :
    (histRun vs).length ≤ capacity ∧ histRun vs = vs.drop (vs.length - capacity) := by
  have hc : capacity = 500 := rfl
  refine ⟨?_, histRun_eq_drop vs⟩
  rw [histRun_eq_drop vs]
  simp only [List.length_drop]
  omega

/-- C2: the series materializer yields exactly one point per buffer element,
the positions are the contiguous integers 1..L (independent of any prior
eviction history, since the function only sees the current buffer), and the
point for the element at 0-based offset i is (i+1, value). -/
theorem C2_series_materializer (buf : List ℚ) :
    (create_tuple_vec_for_graph buf).length = buf.length ∧
    (create_tuple_vec_for_graph buf).map Prod.fst
      = (List.range buf.length).map (fun i => ((i + 1 : ℕ) : ℚ)) ∧
    ∀ i, i < buf.length →
      (create_tuple_vec_for_graph buf).getD i (0, 0)
        = (((i + 1 : ℕ) : ℚ), buf.getD i 0) :=
  ⟨create_tuple_length buf, create_tuple_positions buf,
    fun i h => create_tuple_getD buf i h⟩

/-- Witness for C2 at the concrete buffer [5, 7] and offset 1. -/
theorem C2_witness :
    (create_tuple_vec_for_graph [5, 7]).getD 1 (0, 0) = ((2 : ℚ), (7 : ℚ)) := by
  have h := (C2_series_materializer [5, 7]).2.2 1 (by norm_num)
  simpa using h

/-- C3: the process ranker normalizes each share by the logical CPU count,
stable-sorts ascending by normalized share, and returns the last top_n rows
of that order reversed (formatted with two decimals and a percent marker);
on the spec's concrete example the normalized shares are [25, 40, 5] and the
result is [["2","b","40.00%"], ["1","a","25.00%"]]. -/
theorem C3_process_ranker :
    ((normalizeRows [(1, "a", 50), (2, "b", 80), (3, "c", 10)] 2).map (fun p => p.2.2)
        = [25, 40, 5]) ∧
    (rank [(1, "a", 50), (2, "b", 80), (3, "c", 10)] 2 2
        = [["2", "b", "40.00%"], ["1", "a", "25.00%"]]) ∧
    (∀ (rows : List (Nat × String × ℚ)) (c : ℚ) (t : Nat),
      (rank rows c t).length = min t rows.length) ∧
    (∀ (rows : List (Nat × String × ℚ)) (c : ℚ),
      ((normalizeRows rows c).mergeSort byShare).Pairwise (fun a b => a.2.2 ≤ b.2.2)) ∧
    (∀ (rows : List (Nat × String × ℚ)) (c : ℚ) (t : Nat),
      rank rows c t
        = ((((normalizeRows rows c).mergeSort byShare).drop (rows.length - t)).reverse).map
            (fun p => [p.1, p.2.1, fmt2 p.2.2 ++ "%"])) ∧
    (∀ (rows : List (Nat × String × ℚ)) (c : ℚ) (a b : String × String × ℚ),
      a.2.2 = b.2.2 → List.Sublist [a, b] (normalizeRows rows c) →
      List.Sublist [a, b] ((normalizeRows rows c).mergeSort byShare)) := by
  refine ⟨?_, ?_, rank_length, rank_sorted, rank_tail, rank_stable⟩
  · norm_num [normalizeRows]
  · norm_num [rank, normalizeRows, List.mergeSort, List.splitInTwo, List.splitAt,
      List.splitAt.go, List.merge, byShare, fmt2]
    decide

/-- Witness for C3: two rows with equal normalized shares keep their
original relative order through the sort (stability). -/
theorem C3_witness :
    List.Sublist [("1", "x", (10 : ℚ)), ("2", "y", (10 : ℚ))]
      ((normalizeRows [(1, "x", 10), (2, "y", 10)] 1).mergeSort byShare) := by
  have heq : normalizeRows [(1, "x", 10), (2, "y", 10)] 1
      = [("1", "x", (10 : ℚ)), ("2", "y", (10 : ℚ))] := by
    norm_num [normalizeRows]
    decide
  exact C3_process_ranker.2.2.2.2.2 [(1, "x", 10), (2, "y", 10)] 1 _ _ rfl
    (by rw [heq])

/-- C4: the registry keeps one identity per distinct name in first-seen
order (observing appends the name exactly when it is absent), never moves
or drops an existing identity, updates only the first identity matching the
observed name (keeping its name and color, pushing into its buffer and
re-materializing its series), preserves name-uniqueness, and on the
concrete example "CPU 0", "CPU 0", "CPU 1" produces exactly the identity
list ["CPU 0", "CPU 1"]. -/
theorem C4_identity_registry :
    (∀ (cpus : List CPUData) (nm : String) (u : ℚ),
      (observe cpus nm u).map CPUData.name =
        if nm ∈ cpus.map CPUData.name then cpus.map CPUData.name
        else cpus.map CPUData.name ++ [nm]) ∧
    (∀ (cpus : List CPUData) (nm : String) (u : ℚ) (i : ℕ) (c : CPUData),
      cpus[i]? = some c → c.name ≠ nm → (observe cpus nm u)[i]? = some c) ∧
    (∀ (cpus : List CPUData) (nm : String) (u : ℚ) (i : ℕ) (c : CPUData),
      cpus[i]? = some c → c.name = nm → (∀ x ∈ cpus.take i, x.name ≠ nm) →
      observe cpus nm u = cpus.set i (updateCPU c u) ∧
        (updateCPU c u).name = c.name ∧ (updateCPU c u).color = c.color ∧
        (updateCPU c u).raw_data = pushEvict c.raw_data u ∧
        (updateCPU c u).data = create_tuple_vec_for_graph (pushEvict c.raw_data u)) ∧
    (∀ (cpus : List CPUData) (nm : String) (u : ℚ),
      (cpus.map CPUData.name).Nodup → ((observe cpus nm u).map CPUData.name).Nodup) ∧
    ((observe (observe (observe [] "CPU 0" 1) "CPU 0" 2) "CPU 1" 3).map CPUData.name
      = ["CPU 0", "CPU 1"]) := by
  refine ⟨observe_names, observe_other_positions, ?_, observe_nodup, ?_⟩
  · intro cpus nm u i c hi hc hfirst
    exact ⟨observe_found cpus nm u i c hi hc hfirst, rfl, rfl, rfl, rfl⟩
  · rw [observe_nil]
    rw [observe_cons_hit _ _ _ _ (by rfl)]
    rw [observe_cons_miss _ _ _ _ (by decide)]
    rfl

/-- Witness for C4: re-observing a different name leaves an existing
identity untouched at its position. -/
theorem C4_witness :
    (observe [newCPUData "CPU 0"] "CPU 1" 5)[0]? = some (newCPUData "CPU 0") :=
  C4_identity_registry.2.1 [newCPUData "CPU 0"] "CPU 1" 5 0 (newCPUData "CPU 0")
    rfl (by decide)

/-- C5: the network aggregator returns (0, 0) on an empty interface set,
(a+c, b+d) on two interfaces, and componentwise sums in general (stated
under the no-overflow bound of the modelled 64-bit counters). -/
theorem C5_network_aggregator :
    aggregate [] = (0, 0) ∧
    (∀ a b c d : Nat, a + c < 2 ^ 64 → b + d < 2 ^ 64 →
      aggregate [(a, b), (c, d)] = (a + c, b + d)) ∧
    (∀ l : List (Nat × Nat), (l.map Prod.fst).sum < 2 ^ 64 →
      (l.map Prod.snd).sum < 2 ^ 64 →
      aggregate l = ((l.map Prod.fst).sum, (l.map Prod.snd).sum)) := by
  refine ⟨rfl, ?_, ?_⟩
  · intro a b c d h1 h2
    simp only [aggregate, List.foldl_cons, List.foldl_nil]
    rw [show addWrap a c = a + c from Nat.mod_eq_of_lt h1,
      show addWrap b d = b + d from Nat.mod_eq_of_lt h2]
  · intro l h1 h2
    match l with
    | [] => rfl
    | x :: xs =>
      simp only [List.map_cons, List.sum_cons] at h1 h2
      simp only [aggregate]
      rw [aggregate_foldl xs x (by omega) (by omega)]
      simp

/-- Witness for C5 at two concrete interfaces. -/
theorem C5_witness : aggregate [(1, 2), (3, 4)] = (4, 6) := by
  have h := C5_network_aggregator.2.1 1 2 3 4 (by norm_num) (by norm_num)
  simpa using h

/-- C6: for every interleaving of atomic writer ticks (the updater holds
the write lock for the whole poll-and-publish step) and reader passes, with
the metric source always reporting the same global-CPU name, every snapshot
a reader observes is generation-consistent: each CPU identity's buffer and
series lengths agree with the memory buffer and series lengths. -/
theorem C6_atomic_publish (t : List Ev) (nm : String)
    (hw : ∀ raw : RawSnapshot, Ev.write raw ∈ t → raw.global_cpu_name = nm) :
    ∀ o ∈ (runTrace t).2, lengthsConsistent o = true :=
  (runTrace_consistent nm t (initState, []) (Or.inl ⟨rfl, rfl, rfl⟩)
    (by simp) hw).2

/-- Witness for C6: the read in the concrete trace of one writer tick
followed by one reader pass observes a consistent snapshot. -/
theorem C6_witness :
    lengthsConsistent (update_system_info initState sampleRaw) = true :=
  C6_atomic_publish sampleTrace "0"
    (by
      intro raw hr
      simp only [sampleTrace, List.mem_cons, List.mem_singleton] at hr
      rcases hr with hr | hr
      · injection hr with h
        rw [h]
        rfl
      · exact absurd hr (by simp))
    (update_system_info initState sampleRaw)
    (by simp [runTrace, sampleTrace, stepEv])

/-- C7: for every non-empty process list and logical CPU count at least 1,
the ranker returns a non-empty table of min(top_n, rows) three-column rows;
it is a total function (on ℚ the sort comparator's partial_cmp never
returns None, so the unwrap cannot panic). -/
theorem C7_ranker_no_panic (rows : List (Nat × String × ℚ)) (count : ℚ)
    (h1 : rows ≠ []) (h2 : 1 ≤ count) :
    rank rows count 100 ≠ [] ∧
      (rank rows count 100).length = min 100 rows.length ∧
      (rank rows count 100).all (fun r => r.length == 3) = true := by
  refine ⟨?_, rank_length rows count 100, rank_rows_shape rows count 100⟩
  have hl : (rank rows count 100).length = min 100 rows.length :=
    rank_length rows count 100
  have hpos : 0 < rows.length := List.length_pos.mpr h1
  intro hnil
  rw [hnil] at hl
  simp only [List.length_nil] at hl
  omega

/-- Witness for C7 at one concrete row. -/
theorem C7_witness :
    rank [(1, "a", 50)] 1 100 ≠ [] ∧
      (rank [(1, "a", 50)] 1 100).length = min 100 [(1, "a", (50 : ℚ))].length ∧
      (rank [(1, "a", 50)] 1 100).all (fun r => r.length == 3) = true :=
  C7_ranker_no_panic [(1, "a", 50)] 1 (by simp) (le_refl 1)

/-- C8: ranking an empty process list returns the empty table, for every
logical CPU count and every top_n. -/
theorem C8_rank_empty (count : ℚ) (top_n : Nat) : rank [] count top_n = [] := by
  simp [rank, normalizeRows]

/-- C10: after every sequence of completed update ticks, the memory series
equals the materialization of the memory buffer and every CPU identity's
series equals the materialization of its buffer — no series is stale at
publish time. -/
theorem C10_series_not_stale (raws : List RawSnapshot) :
    seriesFresh (runTicks raws) = true := by
  induction raws using List.reverseRecOn with
  | nil => rfl
  | append_singleton raws raw ih =>
    rw [runTicks_append]
    apply seriesFresh_update
    intro c hc
    simp only [seriesFresh, Bool.and_eq_true, decide_eq_true_eq,
      List.all_eq_true] at ih
    exact ih.2 c hc
